import Mathlib

/-!
Shallow embedding of the banking-ledger backend (Express/Mongoose sources):
per-account multi-currency balances, transfer-engine routes
(`routes/transactions.js`, `routes/crypto.js`, `routes/trading.js`,
`routes/mining.js`) and the two background simulators
(`services/miningService.js`, `services/tradingService.js`).

Amounts are modelled as rationals (the source uses JS numbers; all balance
arithmetic there is plain `+`/`-`/`*` with no rounding), timestamps as
naturals (milliseconds), and each Mongoose document collection owned by an
account as a Lean list carried inside the account state.
-/

set_option maxRecDepth 2000

namespace BestGloBank

/-- The nine supported currencies, from the `balances` keys of the User
schema in `models/User.js`. -/
inductive Currency
  | USD | EUR | GBP | CNY | NGN | BTC | TRX | TON | ETH
  deriving DecidableEq, Fintype

/-- Trading sub-state of an account (`trading` in the User schema). -/
structure Trading where
  capital : ℚ
  profit : ℚ
  robotActive : Bool
  deriving DecidableEq

/-- Mining job kind (`type` in the Mining schema). -/
inductive MType
  | currency | crypto
  deriving DecidableEq

/-- Mining job status.  The Mining schema enum lists
`pending | mining | completed | failed`; the mining toggle route writes
`cancelled` through `updateMany`, which bypasses Mongoose enum validation,
so `cancelled` is a persisted value as well. -/
inductive MStatus
  | pending | mining | completed | failed | cancelled
  deriving DecidableEq

/-- A mining job document (`models/Mining.js`), restricted to the fields
the ledger logic reads or writes.  `id` stands for the Mongo document id;
fresh documents receive fresh ids. -/
structure MiningJob where
  id : ℕ
  currency : Currency
  mtype : MType
  status : MStatus
  progress : ℚ
  targetAmount : ℚ
  minedAmount : ℚ
  startTime : ℕ
  endTime : Option ℕ
  nextMiningTime : Option ℕ
  deriving DecidableEq

/-- Transaction kind (`type` in the Transaction schema), restricted to the
kinds produced by the embedded routes. -/
inductive TxType
  | send | receive | transfer | crypto_send | mining | trading
  deriving DecidableEq

/-- Transaction status values from the Transaction schema. -/
inductive TxStatus
  | pending | processing | completed | failed | cancelled
  deriving DecidableEq

/-- A transaction document, restricted to the fields the embedded routes
set and the claims mention. -/
structure Txn where
  ttype : TxType
  currency : Option Currency
  amount : ℚ
  fromCurrency : Option Currency
  toCurrency : Option Currency
  convertedAmount : Option ℚ
  exchangeRate : Option ℚ
  recipient : Option String
  status : TxStatus
  deriving DecidableEq

/-- Account lifecycle status (`status` in the User schema). -/
inductive UserStatus
  | active | suspended | banned
  deriving DecidableEq

/-- One account's durable state: its user document (status, balances,
trading sub-state) together with the mining-job and transaction documents
owned by it.  `nextJobId` models the supply of fresh Mongo ids for newly
created mining documents. -/
structure Account where
  status : UserStatus
  balances : Currency → ℚ
  trading : Trading
  jobs : List MiningJob
  nextJobId : ℕ
  txns : List Txn

/-- Result of the send / crypto-send / international routes. -/
inductive SendResult
  | ok | insufficientBalance
  deriving DecidableEq

/-- Result of the currency-conversion transfer route. -/
inductive TransferResult
  | ok | sameCurrency | insufficientBalance
  deriving DecidableEq

/-- Result of the withdraw-profit route. -/
inductive WithdrawResult
  | ok | noProfit
  deriving DecidableEq

/-- The transaction document created by the send route
(`routes/transactions.js`, `POST /send`). -/
def mkSendTxn (c : Currency) (amt : ℚ) (recip : String) : Txn :=
  { ttype := .send, currency := some c, amount := amt, fromCurrency := none,
    toCurrency := none, convertedAmount := none, exchangeRate := none,
    recipient := some recip, status := .completed }

/-- `POST /api/transactions/send` (`routes/transactions.js`): fail with
`INSUFFICIENT_BALANCE` when `user.balances[currency] < amount`, otherwise
debit the balance and append a `completed` transaction. -/
def send (c : Currency) (amt : ℚ) (recip : String) (a : Account) :
    Account × SendResult :=
  if a.balances c < amt then
    (a, .insufficientBalance)
  else
    ({ a with
        balances := Function.update a.balances c (a.balances c - amt),
        txns := a.txns ++ [mkSendTxn c amt recip] }, .ok)

/-- The transaction document created by the receive route. -/
def mkReceiveTxn (c : Currency) (amt : ℚ) : Txn :=
  { ttype := .receive, currency := some c, amount := amt, fromCurrency := none,
    toCurrency := none, convertedAmount := none, exchangeRate := none,
    recipient := none, status := .completed }

/-- `POST /api/transactions/receive`: credit the balance unconditionally and
append a `completed` transaction. -/
def receive (c : Currency) (amt : ℚ) (a : Account) : Account :=
  { a with
      balances := Function.update a.balances c (a.balances c + amt),
      txns := a.txns ++ [mkReceiveTxn c amt] }

/-- Theorem C2 support: result and state of `send`, split by the balance
guard.  The guard in the source is `user.balances[currency] < amount`. -/
theorem send_insufficient_iff (c : Currency) (amt : ℚ) (recip : String)
    (a : Account) :
    (send c amt recip a).2 = SendResult.insufficientBalance ↔
      a.balances c < amt := by
  unfold send
  split <;> simp_all

theorem send_fail_state (c : Currency) (amt : ℚ) (recip : String)
    (a : Account) (h : a.balances c < amt) :
    (send c amt recip a).1 = a := by
  unfold send
  split <;> simp_all

/-- C2: Send fails with InsufficientBalance exactly when the balance in the
requested currency is below the amount; on failure the whole account state
(balances and transaction list included) is unchanged; on success the
balance drops by exactly the amount and exactly one `completed` transaction
with that amount and currency is appended. -/
theorem send_insufficient_balance_spec (c : Currency) (amt : ℚ)
    (recip : String) (a : Account) :
    ((send c amt recip a).2 = SendResult.insufficientBalance ↔
       a.balances c < amt)
    ∧ (a.balances c < amt → (send c amt recip a).1 = a)
    ∧ (¬ a.balances c < amt →
        (send c amt recip a).2 = SendResult.ok
        ∧ (send c amt recip a).1.balances c = a.balances c - amt
        ∧ (send c amt recip a).1.txns = a.txns ++ [mkSendTxn c amt recip]
        ∧ (mkSendTxn c amt recip).status = TxStatus.completed
        ∧ (mkSendTxn c amt recip).amount = amt
        ∧ (mkSendTxn c amt recip).currency = some c) := by
  refine ⟨send_insufficient_iff c amt recip a,
          send_fail_state c amt recip a, fun h => ?_⟩
  unfold send
  split
  · exact absurd (by assumption) h
  · simp [mkSendTxn, Function.update_same]

/-- Account with `USD = 100` (and everything else zero) used by the
scenario witnesses. -/
def acctUSD100 : Account :=
  { status := .active,
    balances := fun c => match c with | .USD => 100 | _ => 0,
    trading := { capital := 0, profit := 0, robotActive := false },
    jobs := [], nextJobId := 0, txns := [] }

/-- Witness for C2 at the two spec scenarios: Send(USD,150) on `USD=100`
fails and leaves the balance at 100; Send(USD,50) succeeds and leaves 50. -/
theorem send_insufficient_balance_spec_witness :
    ((send Currency.USD 150 "R" acctUSD100).2 =
        SendResult.insufficientBalance ↔
      acctUSD100.balances Currency.USD < 150)
    ∧ (send Currency.USD 150 "R" acctUSD100).1.balances Currency.USD = 100
    ∧ (send Currency.USD 50 "R" acctUSD100).2 = SendResult.ok
    ∧ (send Currency.USD 50 "R" acctUSD100).1.balances Currency.USD = 50
    ∧ (send Currency.USD 50 "R" acctUSD100).1.txns =
        [mkSendTxn Currency.USD 50 "R"] :=
  ⟨(send_insufficient_balance_spec Currency.USD 150 "R" acctUSD100).1,
   by with_unfolding_all decide, by with_unfolding_all decide, by with_unfolding_all decide, by with_unfolding_all decide⟩

/-- C10: Send with amount exactly equal to the balance succeeds (the guard
is a strict `<`) and leaves the balance exactly 0. -/
theorem send_exact_balance_succeeds (c : Currency) (amt : ℚ)
    (recip : String) (a : Account) (h : a.balances c = amt) :
    (send c amt recip a).2 = SendResult.ok
    ∧ (send c amt recip a).1.balances c = 0 := by
  unfold send
  split
  · exact absurd (by assumption) (by rw [h]; exact lt_irrefl amt)
  · constructor
    · rfl
    · simp [Function.update_same, h]

/-- Witness for C10: Send(USD,100) on the `USD=100` account succeeds and
zeroes the balance. -/
theorem send_exact_balance_succeeds_witness :
    acctUSD100.balances Currency.USD = 100
    ∧ (send Currency.USD 100 "R" acctUSD100).2 = SendResult.ok
    ∧ (send Currency.USD 100 "R" acctUSD100).1.balances Currency.USD = 0 :=
  ⟨by with_unfolding_all decide,
   (send_exact_balance_succeeds Currency.USD 100 "R" acctUSD100 (by with_unfolding_all decide)).1,
   (send_exact_balance_succeeds Currency.USD 100 "R" acctUSD100 (by with_unfolding_all decide)).2⟩

/-- Static conversion table from the transfer route
(`routes/transactions.js`), keyed by the ordered currency pair. -/
def conversionRates (fromC toC : Currency) : Option ℚ :=
  match fromC, toC with
  | .USD, .EUR => some (92 / 100)
  | .USD, .GBP => some (79 / 100)
  | .USD, .CNY => some (724 / 100)
  | .USD, .NGN => some 1550
  | .EUR, .USD => some (109 / 100)
  | .GBP, .USD => some (127 / 100)
  | .CNY, .USD => some (14 / 100)
  | .NGN, .USD => some (65 / 100000)
  | _, _ => none

/-- The transaction document created by the transfer route. -/
def mkTransferTxn (fromC toC : Currency) (amt converted rate : ℚ) : Txn :=
  { ttype := .transfer, currency := none, amount := amt,
    fromCurrency := some fromC, toCurrency := some toC,
    convertedAmount := some converted, exchangeRate := some rate,
    recipient := none, status := .completed }

/-- `POST /api/transactions/transfer`: reject same-currency requests, then
check the source balance, look up the rate (the JS `rates[key] || 1`
fallback; every table entry is nonzero, so `Option.getD 1` is the same
function), debit the source currency and credit `amount * rate` to the
target currency. -/
def transfer (fromC toC : Currency) (amt : ℚ) (a : Account) :
    Account × TransferResult :=
  if fromC = toC then
    (a, .sameCurrency)
  else if a.balances fromC < amt then
    (a, .insufficientBalance)
  else
    let rate := (conversionRates fromC toC).getD 1
    let converted := amt * rate
    let b1 := Function.update a.balances fromC (a.balances fromC - amt)
    let b2 := Function.update b1 toC (b1 toC + converted)
    ({ a with
        balances := b2,
        txns := a.txns ++ [mkTransferTxn fromC toC amt converted rate] }, .ok)

/-- The transaction document created by the crypto send route
(`routes/crypto.js`); the random transaction hash is irrelevant to the
ledger and not modelled. -/
def mkCryptoSendTxn (c : Currency) (amt : ℚ) (addr : String) : Txn :=
  { ttype := .crypto_send, currency := some c, amount := amt,
    fromCurrency := none, toCurrency := none, convertedAmount := none,
    exchangeRate := none, recipient := some addr, status := .completed }

/-- `POST /api/crypto/send` (`routes/crypto.js`): same balance guard and
debit as `send`, with a `crypto_send` transaction. -/
def cryptoSend (c : Currency) (amt : ℚ) (addr : String) (a : Account) :
    Account × SendResult :=
  if a.balances c < amt then
    (a, .insufficientBalance)
  else
    ({ a with
        balances := Function.update a.balances c (a.balances c - amt),
        txns := a.txns ++ [mkCryptoSendTxn c amt addr] }, .ok)

/-- The transaction document created by the international transfer route:
type `send`, status `processing`. -/
def mkInternationalTxn (c : Currency) (amt : ℚ) (recip : String) : Txn :=
  { ttype := .send, currency := some c, amount := amt, fromCurrency := none,
    toCurrency := none, convertedAmount := none, exchangeRate := none,
    recipient := some recip, status := .processing }

/-- `POST /api/transactions/international`: same balance guard and debit as
`send`, but the transaction is created with status `processing`.  This
route has no Joi validation schema, so the amount is unconstrained. -/
def internationalTransfer (c : Currency) (amt : ℚ) (recip : String)
    (a : Account) : Account × SendResult :=
  if a.balances c < amt then
    (a, .insufficientBalance)
  else
    ({ a with
        balances := Function.update a.balances c (a.balances c - amt),
        txns := a.txns ++ [mkInternationalTxn c amt recip] }, .ok)

/-- The transaction document created by the withdraw-profit route. -/
def mkWithdrawTxn (amt : ℚ) : Txn :=
  { ttype := .trading, currency := some .USD, amount := amt,
    fromCurrency := none, toCurrency := none, convertedAmount := none,
    exchangeRate := none, recipient := none, status := .completed }

/-- `POST /api/trading/withdraw-profit` (`routes/trading.js`): fail with
`NO_PROFIT` when `trading.profit <= 0`, otherwise move the whole profit
into the USD balance and zero the profit. -/
def withdrawProfit (a : Account) : Account × WithdrawResult :=
  if a.trading.profit ≤ 0 then
    (a, .noProfit)
  else
    ({ a with
        balances := Function.update a.balances .USD
          (a.balances .USD + a.trading.profit),
        trading := { a.trading with profit := 0 },
        txns := a.txns ++ [mkWithdrawTxn a.trading.profit] }, .ok)

/-- C4: the currency-conversion transfer fails with SameCurrency (mutating
nothing) when source and target coincide, and otherwise, with sufficient
source balance, debits exactly the amount and credits exactly
`amount * rate`, where the rate is the static table entry for the ordered
pair with default 1. -/
theorem transfer_conversion_spec (fromC toC : Currency) (amt : ℚ)
    (a : Account) :
    (fromC = toC → transfer fromC toC amt a = (a, TransferResult.sameCurrency))
    ∧ (fromC ≠ toC → ¬ a.balances fromC < amt →
        (transfer fromC toC amt a).2 = TransferResult.ok
        ∧ (transfer fromC toC amt a).1.balances fromC =
            a.balances fromC - amt
        ∧ (transfer fromC toC amt a).1.balances toC =
            a.balances toC + amt * ((conversionRates fromC toC).getD 1)
        ∧ (transfer fromC toC amt a).1.txns = a.txns ++
            [mkTransferTxn fromC toC amt
              (amt * ((conversionRates fromC toC).getD 1))
              ((conversionRates fromC toC).getD 1)]) := by
  constructor
  · intro h
    unfold transfer
    simp [h]
  · intro hne hbal
    refine ⟨?_, ?_, ?_, ?_⟩
    · simp only [transfer, if_neg hne, if_neg hbal]
    · simp only [transfer, if_neg hne, if_neg hbal]
      rw [Function.update_noteq hne, Function.update_same]
    · simp only [transfer, if_neg hne, if_neg hbal]
      rw [Function.update_same, Function.update_noteq (Ne.symm hne)]
    · simp only [transfer, if_neg hne, if_neg hbal]

/-- Witness for C4: on the `USD=100` account, Transfer(USD→USD, 50) fails
SameCurrency, and Transfer(USD→EUR, 50) debits 50 USD and credits
`50 * 0.92 = 46` EUR. -/
theorem transfer_conversion_spec_witness :
    transfer Currency.USD Currency.USD 50 acctUSD100 =
      (acctUSD100, TransferResult.sameCurrency)
    ∧ (transfer Currency.USD Currency.EUR 50 acctUSD100).2 =
        TransferResult.ok
    ∧ (transfer Currency.USD Currency.EUR 50 acctUSD100).1.balances
        Currency.USD = 50
    ∧ (transfer Currency.USD Currency.EUR 50 acctUSD100).1.balances
        Currency.EUR = 46 :=
  ⟨(transfer_conversion_spec Currency.USD Currency.USD 50 acctUSD100).1 rfl,
   ((transfer_conversion_spec Currency.USD Currency.EUR 50 acctUSD100).2
      (by decide) (by with_unfolding_all decide)).1,
   by with_unfolding_all decide,
   by with_unfolding_all decide⟩

/-- C8: a successful conversion transfer changes only the source- and
target-currency balances; every other currency balance and the whole
trading sub-state are unchanged. -/
theorem transfer_frame (fromC toC c : Currency) (amt : ℚ) (a : Account)
    (hok : (transfer fromC toC amt a).2 = TransferResult.ok)
    (h1 : c ≠ fromC) (h2 : c ≠ toC) :
    (transfer fromC toC amt a).1.balances c = a.balances c
    ∧ (transfer fromC toC amt a).1.trading = a.trading := by
  by_cases hst : fromC = toC
  · exfalso
    unfold transfer at hok
    rw [if_pos hst] at hok
    exact absurd hok (by simp)
  · by_cases hbal : a.balances fromC < amt
    · exfalso
      unfold transfer at hok
      rw [if_neg hst, if_pos hbal] at hok
      exact absurd hok (by simp)
    · constructor
      · simp only [transfer, if_neg hst, if_neg hbal]
        rw [Function.update_noteq h2, Function.update_noteq h1]
      · simp only [transfer, if_neg hst, if_neg hbal]

/-- Witness for C8: Transfer(USD→EUR, 50) on the `USD=100` account leaves
the GBP balance and the trading sub-state untouched. -/
theorem transfer_frame_witness :
    (transfer Currency.USD Currency.EUR 50 acctUSD100).2 = TransferResult.ok
    ∧ (transfer Currency.USD Currency.EUR 50 acctUSD100).1.balances
        Currency.GBP = acctUSD100.balances Currency.GBP
    ∧ (transfer Currency.USD Currency.EUR 50 acctUSD100).1.trading =
        acctUSD100.trading :=
  ⟨by with_unfolding_all decide,
   (transfer_frame Currency.USD Currency.EUR Currency.GBP 50 acctUSD100
      (by with_unfolding_all decide) (by decide) (by decide)).1,
   (transfer_frame Currency.USD Currency.EUR Currency.GBP 50 acctUSD100
      (by with_unfolding_all decide) (by decide) (by decide)).2⟩

/-- C6: withdraw-profit fails with NoProfitAvailable exactly when the
trading profit is ≤ 0, mutating nothing on failure; with positive profit it
adds exactly the profit to the USD balance, zeroes the profit and leaves
the capital unchanged. -/
theorem withdraw_profit_spec (a : Account) :
    ((withdrawProfit a).2 = WithdrawResult.noProfit ↔ a.trading.profit ≤ 0)
    ∧ (a.trading.profit ≤ 0 → (withdrawProfit a).1 = a)
    ∧ (0 < a.trading.profit →
        (withdrawProfit a).1.balances Currency.USD =
          a.balances Currency.USD + a.trading.profit
        ∧ (withdrawProfit a).1.trading.profit = 0
        ∧ (withdrawProfit a).1.trading.capital = a.trading.capital) := by
  refine ⟨?_, ?_, ?_⟩
  · unfold withdrawProfit
    split <;> simp_all
  · intro h
    unfold withdrawProfit
    split <;> simp_all
  · intro h
    unfold withdrawProfit
    split
    · exact absurd (by assumption) (not_le.mpr h)
    · exact ⟨by simp [Function.update_same], rfl, rfl⟩

/-- Account with trading profit 25 used by the withdraw-profit witness. -/
def acctProfit25 : Account :=
  { status := .active,
    balances := fun _ => 0,
    trading := { capital := 40, profit := 25, robotActive := true },
    jobs := [], nextJobId := 0, txns := [] }

/-- Witness for C6: withdrawing on profit 25 credits 25 USD and zeroes the
profit; withdrawing on zero profit fails and changes nothing. -/
theorem withdraw_profit_spec_witness :
    ((withdrawProfit acctUSD100).2 = WithdrawResult.noProfit ↔
      acctUSD100.trading.profit ≤ 0)
    ∧ (withdrawProfit acctProfit25).1.balances Currency.USD = 25
    ∧ (withdrawProfit acctProfit25).1.trading.profit = 0
    ∧ (withdrawProfit acctProfit25).1.trading.capital = 40 :=
  ⟨(withdraw_profit_spec acctUSD100).1,
   by with_unfolding_all decide,
   ((withdraw_profit_spec acctProfit25).2.2 (by decide)).2.1,
   by with_unfolding_all decide⟩

/-- The transaction document created by one trading-robot cycle
(`services/tradingService.js`); `amt` is `Math.abs(profit)`. -/
def mkTradeTxn (amt : ℚ) : Txn :=
  { ttype := .trading, currency := some .USD, amount := amt,
    fromCurrency := none, toCurrency := none, convertedAmount := none,
    exchangeRate := none, recipient := none, status := .completed }

/-- One trading-robot cycle for one account
(`executeTradingRobots` in `services/tradingService.js`).  The two
`Math.random()` draws are passed in: `r1` scales the trade size
(`tradeAmount = capital * (0.01 + r1 * 0.05)`), `r2` the profit rate
(`0.02 + r2 * 0.08`); `isProfitable` is the 65%-probability outcome draw.
Accounts outside the `robotActive ∧ active` query, or with
`capital <= 0`, are skipped. -/
def tradeOne (isProfitable : Bool) (r1 r2 : ℚ) (a : Account) : Account :=
  if a.trading.robotActive = true ∧ a.status = UserStatus.active then
    if a.trading.capital ≤ 0 then a
    else
      let tradeAmount := a.trading.capital * (1 / 100 + r1 * (5 / 100))
      let profitDelta :=
        if isProfitable then tradeAmount * (2 / 100 + r2 * (8 / 100))
        else -(tradeAmount * (2 / 100))
      let a1 :=
        if isProfitable then
          { a with trading :=
              { a.trading with profit := a.trading.profit + profitDelta } }
        else
          { a with trading :=
              { a.trading with
                  capital := max 0 (a.trading.capital - |profitDelta|) } }
      { a1 with txns := a1.txns ++ [mkTradeTxn |profitDelta|] }
  else a

/-- C9: in a trading cycle, for a processed account
(`robotActive`, `active`, `capital > 0`) and random draws in range
(`Math.random() ∈ [0,1)` gives `0 ≤ r1, r2`), profit never decreases and
capital never increases; a profitable outcome adds
`tradeAmount * (0.02 + r2*0.08)` to profit leaving capital unchanged, and
an unprofitable outcome leaves profit unchanged and reduces capital by at
most `tradeAmount * 0.02`, flooring the result at 0. -/
theorem trading_cycle_profit_capital (p : Bool) (r1 r2 : ℚ) (a : Account)
    (hr1 : 0 ≤ r1) (hr2 : 0 ≤ r2) :
    a.trading.profit ≤ (tradeOne p r1 r2 a).trading.profit
    ∧ (tradeOne p r1 r2 a).trading.capital ≤ a.trading.capital
    ∧ (a.trading.robotActive = true → a.status = UserStatus.active →
        0 < a.trading.capital →
        (p = true →
          (tradeOne p r1 r2 a).trading.capital = a.trading.capital
          ∧ (tradeOne p r1 r2 a).trading.profit = a.trading.profit +
              a.trading.capital * (1 / 100 + r1 * (5 / 100)) *
                (2 / 100 + r2 * (8 / 100)))
        ∧ (p = false →
          (tradeOne p r1 r2 a).trading.profit = a.trading.profit
          ∧ (tradeOne p r1 r2 a).trading.capital =
              max 0 (a.trading.capital -
                a.trading.capital * (1 / 100 + r1 * (5 / 100)) * (2 / 100))
          ∧ a.trading.capital - (tradeOne p r1 r2 a).trading.capital ≤
              a.trading.capital * (1 / 100 + r1 * (5 / 100)) *
                (2 / 100))) := by
  by_cases hact : a.trading.robotActive = true ∧ a.status = UserStatus.active
  · by_cases hcap : a.trading.capital ≤ 0
    · simp only [tradeOne, if_pos hact, if_pos hcap]
      exact ⟨le_refl _, le_refl _,
        fun _ _ hpos => absurd hcap (not_le.mpr hpos)⟩
    · have hcap' : 0 < a.trading.capital := lt_of_not_le hcap
      have hfrac : (0 : ℚ) ≤ 1 / 100 + r1 * (5 / 100) := by positivity
      have ht : 0 ≤ a.trading.capital * (1 / 100 + r1 * (5 / 100)) :=
        mul_nonneg hcap'.le hfrac
      have hrate : (0 : ℚ) ≤ 2 / 100 + r2 * (8 / 100) := by positivity
      have habs : |-(a.trading.capital * (1 / 100 + r1 * (5 / 100)) *
          (2 / 100))| =
          a.trading.capital * (1 / 100 + r1 * (5 / 100)) * (2 / 100) := by
        rw [abs_neg, abs_of_nonneg (mul_nonneg ht (by norm_num))]
      cases p
      · simp only [tradeOne, if_pos hact, if_neg hcap, Bool.false_eq_true,
                   if_neg not_false, habs]
        refine ⟨le_refl _, ?_, fun _ _ _ =>
          ⟨fun h => absurd h (by simp), fun _ => ⟨trivial, trivial, ?_⟩⟩⟩
        · exact max_le hcap'.le
            (sub_le_self _ (mul_nonneg ht (by norm_num)))
        · have := le_max_right (0 : ℚ)
            (a.trading.capital -
              a.trading.capital * (1 / 100 + r1 * (5 / 100)) * (2 / 100))
          linarith
      · simp only [tradeOne, if_pos hact, if_neg hcap, if_pos rfl]
        refine ⟨le_add_of_nonneg_right (mul_nonneg ht hrate), le_refl _,
          fun _ _ _ => ⟨fun _ => ⟨rfl, rfl⟩, fun h => absurd h (by simp)⟩⟩
  · simp only [tradeOne, if_neg hact]
    exact ⟨le_refl _, le_refl _, fun h1 h2 _ => absurd ⟨h1, h2⟩ hact⟩

/-- Witness for C9 on the active robot account with capital 40 and both
draws 0: the profitable branch adds `40 * 0.01 * 0.02` to profit with
capital unchanged, and the unprofitable branch leaves profit unchanged. -/
theorem trading_cycle_profit_capital_witness :
    acctProfit25.trading.robotActive = true
    ∧ acctProfit25.trading.capital = 40
    ∧ 0 < acctProfit25.trading.capital
    ∧ (tradeOne true 0 0 acctProfit25).trading.capital =
        acctProfit25.trading.capital
    ∧ (tradeOne true 0 0 acctProfit25).trading.profit =
        acctProfit25.trading.profit + acctProfit25.trading.capital *
          (1 / 100 + 0 * (5 / 100)) * (2 / 100 + 0 * (8 / 100))
    ∧ (tradeOne false 0 0 acctProfit25).trading.profit =
        acctProfit25.trading.profit :=
  ⟨by decide, by decide, by decide,
   ((((trading_cycle_profit_capital true 0 0 acctProfit25 le_rfl
        le_rfl).2.2 rfl rfl (by decide)).1) rfl).1,
   ((((trading_cycle_profit_capital true 0 0 acctProfit25 le_rfl
        le_rfl).2.2 rfl rfl (by decide)).1) rfl).2,
   ((((trading_cycle_profit_capital false 0 0 acctProfit25 le_rfl
        le_rfl).2.2 rfl rfl (by decide)).2) rfl).1⟩

/-- `Mining.createMiningOperation` (`models/Mining.js`): a fresh job in
`mining` status with zero progress and zero mined amount. -/
def newJob (nid : ℕ) (c : Currency) (t : MType) (target : ℚ) (now : ℕ) :
    MiningJob :=
  { id := nid, currency := c, mtype := t, status := .mining, progress := 0,
    targetAmount := target, minedAmount := 0, startTime := now,
    endTime := none, nextMiningTime := none }

/-- The nine (currency, type, target) triples created by the mining toggle
route (`routes/mining.js`): five fiat at 1000, BTC at 1, the other three
cryptos at 100, in creation order. -/
def miningStartList : List (Currency × MType × ℚ) :=
  [(.USD, .currency, 1000), (.EUR, .currency, 1000), (.GBP, .currency, 1000),
   (.CNY, .currency, 1000), (.NGN, .currency, 1000),
   (.BTC, .crypto, 1), (.TRX, .crypto, 100), (.TON, .crypto, 100),
   (.ETH, .crypto, 100)]

/-- One `createMiningOperation` call made by the toggle route. -/
def startJob (now : ℕ) (s : Account) (cct : Currency × MType × ℚ) :
    Account :=
  { s with
      jobs := s.jobs ++ [newJob s.nextJobId cct.1 cct.2.1 cct.2.2 now],
      nextJobId := s.nextJobId + 1 }

/-- `POST /api/mining/toggle` (`routes/mining.js`): toggling on creates the
nine jobs only when the account has no job in `mining` status
(`getUserActiveMining(...).length === 0`); toggling off sets every
`mining` job to `cancelled` and stamps `endTime` via `updateMany`. -/
def toggleMining (enabled : Bool) (now : ℕ) (a : Account) : Account :=
  if enabled then
    if (a.jobs.filter (fun j => j.status = MStatus.mining)).length = 0 then
      miningStartList.foldl (startJob now) a
    else a
  else
    { a with
        jobs := a.jobs.map (fun j =>
          if j.status = MStatus.mining then
            { j with status := .cancelled, endTime := some now }
          else j) }

/-- Jobs created by a run of `createMiningOperation` calls, with fresh ids
assigned in order starting at `nid`. -/
def startJobsFrom (now nid : ℕ) : List (Currency × MType × ℚ) → List MiningJob
  | [] => []
  | cct :: rest => newJob nid cct.1 cct.2.1 cct.2.2 now ::
      startJobsFrom now (nid + 1) rest

theorem foldl_startJob_jobs (now : ℕ) :
    ∀ (L : List (Currency × MType × ℚ)) (s : Account),
      (L.foldl (startJob now) s).jobs =
        s.jobs ++ startJobsFrom now s.nextJobId L := by
  intro L
  induction L with
  | nil => intro s; simp [startJobsFrom]
  | cons cct rest ih =>
      intro s
      rw [List.foldl_cons, ih (startJob now s cct)]
      simp [startJob, startJobsFrom]

theorem foldl_startJob_frame (now : ℕ) :
    ∀ (L : List (Currency × MType × ℚ)) (s : Account),
      (L.foldl (startJob now) s).balances = s.balances
      ∧ (L.foldl (startJob now) s).status = s.status
      ∧ (L.foldl (startJob now) s).trading = s.trading
      ∧ (L.foldl (startJob now) s).txns = s.txns := by
  intro L
  induction L with
  | nil => intro s; exact ⟨rfl, rfl, rfl, rfl⟩
  | cons cct rest ih =>
      intro s
      rw [List.foldl_cons]
      exact ih (startJob now s cct)

theorem startJobsFrom_filter_mining (now : ℕ) :
    ∀ (L : List (Currency × MType × ℚ)) (nid : ℕ),
      (startJobsFrom now nid L).filter
          (fun j => j.status = MStatus.mining) =
        startJobsFrom now nid L := by
  intro L
  induction L with
  | nil => intro nid; rfl
  | cons cct rest ih =>
      intro nid
      simp [startJobsFrom, newJob, List.filter_cons, ih]

theorem startJobsFrom_map_triple (now : ℕ) :
    ∀ (L : List (Currency × MType × ℚ)) (nid : ℕ),
      (startJobsFrom now nid L).map
          (fun j => (j.currency, j.mtype, j.targetAmount)) = L := by
  intro L
  induction L with
  | nil => intro nid; rfl
  | cons cct rest ih =>
      intro nid
      simp [startJobsFrom, newJob, ih]

theorem startJobsFrom_length (now : ℕ) :
    ∀ (L : List (Currency × MType × ℚ)) (nid : ℕ),
      (startJobsFrom now nid L).length = L.length := by
  intro L
  induction L with
  | nil => intro nid; rfl
  | cons cct rest ih =>
      intro nid
      simp [startJobsFrom, ih]

/-- C5: toggling mining on with zero `mining` jobs creates exactly 9 jobs,
all in `mining` status, with the fixed targets (fiat 1000, BTC 1, other
cryptos 100); toggling on while a `mining` job exists changes nothing;
toggling off cancels exactly the `mining` jobs, stamping `endTime`, and
leaves jobs in other statuses unchanged. -/
theorem toggle_mining_spec (now : ℕ) (a : Account) :
    ((a.jobs.filter (fun j => j.status = MStatus.mining)).length = 0 →
      ((toggleMining true now a).jobs.filter
          (fun j => j.status = MStatus.mining)).map
            (fun j => (j.currency, j.mtype, j.targetAmount)) =
        miningStartList
      ∧ (toggleMining true now a).jobs.length = a.jobs.length + 9)
    ∧ ((a.jobs.filter (fun j => j.status = MStatus.mining)).length ≠ 0 →
      toggleMining true now a = a)
    ∧ (toggleMining false now a).jobs = a.jobs.map (fun j =>
        if j.status = MStatus.mining then
          { j with status := MStatus.cancelled, endTime := some now }
        else j) := by
  refine ⟨fun h => ?_, fun h => ?_, ?_⟩
  · have hfil : a.jobs.filter (fun j => j.status = MStatus.mining) = [] :=
      List.length_eq_zero.mp h
    have hjobs : (toggleMining true now a).jobs =
        a.jobs ++ startJobsFrom now a.nextJobId miningStartList := by
      simp only [toggleMining, if_pos h, if_pos rfl]
      exact foldl_startJob_jobs now miningStartList a
    constructor
    · rw [hjobs, List.filter_append, hfil,
        startJobsFrom_filter_mining now miningStartList a.nextJobId,
        List.nil_append,
        startJobsFrom_map_triple now miningStartList a.nextJobId]
    · rw [hjobs, List.length_append,
        startJobsFrom_length now miningStartList a.nextJobId]
      rfl
  · simp [toggleMining, h]
  · simp [toggleMining]

/-- Account with one `mining` job and one `completed` job, for the toggle
witnesses. -/
def acctMining1 : Account :=
  { status := .active,
    balances := fun _ => 0,
    trading := { capital := 0, profit := 0, robotActive := false },
    jobs := [newJob 0 .USD .currency 1000 0,
             { newJob 1 .EUR .currency 1000 0 with status := .completed }],
    nextJobId := 2, txns := [] }

/-- Witness for C5: toggling on with no jobs creates the nine jobs;
toggling on with an active job changes nothing; toggling off cancels the
`mining` job and leaves the `completed` one untouched. -/
theorem toggle_mining_spec_witness :
    (acctUSD100.jobs.filter (fun j => j.status = MStatus.mining)).length = 0
    ∧ ((toggleMining true 5 acctUSD100).jobs.filter
        (fun j => j.status = MStatus.mining)).map
          (fun j => (j.currency, j.mtype, j.targetAmount)) = miningStartList
    ∧ (toggleMining true 5 acctUSD100).jobs.length =
        acctUSD100.jobs.length + 9
    ∧ (acctMining1.jobs.filter
        (fun j => j.status = MStatus.mining)).length ≠ 0
    ∧ toggleMining true 9 acctMining1 = acctMining1
    ∧ (toggleMining false 7 acctMining1).jobs =
        [{ newJob 0 .USD .currency 1000 0 with
             status := MStatus.cancelled, endTime := some 7 },
         { newJob 1 .EUR .currency 1000 0 with status := MStatus.completed }] :=
  ⟨by decide,
   ((toggle_mining_spec 5 acctUSD100).1 (by decide)).1,
   ((toggle_mining_spec 5 acctUSD100).1 (by decide)).2,
   by decide,
   (toggle_mining_spec 9 acctMining1).2.1 (by decide),
   by decide⟩

/-- The transaction document created per completed job by the mining sweep
(`processMiningCycles` in `services/miningService.js`). -/
def mkMiningTxn (j : MiningJob) : Txn :=
  { ttype := .mining, currency := some j.currency, amount := j.targetAmount,
    fromCurrency := none, toCurrency := none, convertedAmount := none,
    exchangeRate := none, recipient := none, status := .completed }

/-- The in-place document update the sweep performs on a processed job:
`status = completed`, `minedAmount = targetAmount`, `progress = 100`,
`endTime = now`, `nextMiningTime = now + 1h`. -/
def completeOne (now : ℕ) (k : MiningJob) : MiningJob :=
  { k with status := .completed, minedAmount := k.targetAmount,
           progress := 100, endTime := some now,
           nextMiningTime := some (now + 3600000) }

/-- One loop iteration of the completion sweep for the job snapshot `j`:
credit `targetAmount`, append the mining transaction, update the job
document (matched by id, since the sweep saves the fetched document), and
create the successor job via `createMiningOperation`. -/
def completeMiningJob (now : ℕ) (j : MiningJob) (a : Account) : Account :=
  { a with
      balances := Function.update a.balances j.currency
        (a.balances j.currency + j.targetAmount),
      txns := a.txns ++ [mkMiningTxn j],
      jobs := (a.jobs.map (fun k =>
          if k.id = j.id then completeOne now k else k))
        ++ [newJob a.nextJobId j.currency j.mtype j.targetAmount now],
      nextJobId := a.nextJobId + 1 }

/-- One iteration of the sweep loop, including the
`user.status !== 'active'` skip. -/
def sweepStep (now : ℕ) (s : Account) (j : MiningJob) : Account :=
  if s.status = UserStatus.active then completeMiningJob now j s else s

/-- `processMiningCycles` (`services/miningService.js`): snapshot the jobs
in `mining` status (`Mining.find({status:'mining'})`), then process each
snapshot entry in order. -/
def processMiningCycles (now : ℕ) (a : Account) : Account :=
  (a.jobs.filter (fun j => j.status = MStatus.mining)).foldl
    (sweepStep now) a

/-- Job-document state after the sweep has processed the ids in `ids`. -/
def markCompleted (now : ℕ) (ids : List ℕ) (k : MiningJob) : MiningJob :=
  if k.id ∈ ids then completeOne now k else k

/-- Successor jobs created by the sweep for the snapshot entries, with
fresh ids assigned in order starting at `nid`. -/
def successorsFrom (now nid : ℕ) : List MiningJob → List MiningJob
  | [] => []
  | j :: rest => newJob nid j.currency j.mtype j.targetAmount now ::
      successorsFrom now (nid + 1) rest

theorem sweepStep_status (now : ℕ) (s : Account) (j : MiningJob) :
    (sweepStep now s j).status = s.status := by
  unfold sweepStep completeMiningJob
  split <;> rfl

theorem foldl_sweep_status (now : ℕ) :
    ∀ (L : List MiningJob) (s : Account),
      (L.foldl (sweepStep now) s).status = s.status := by
  intro L
  induction L with
  | nil => intro s; rfl
  | cons j rest ih =>
      intro s
      rw [List.foldl_cons, ih (sweepStep now s j), sweepStep_status]

theorem foldl_sweep_balances (now : ℕ) :
    ∀ (L : List MiningJob) (s : Account),
      s.status = UserStatus.active → ∀ c,
      (L.foldl (sweepStep now) s).balances c =
        s.balances c +
          (L.map (fun j => if j.currency = c then j.targetAmount else 0)).sum := by
  intro L
  induction L with
  | nil => intro s _ c; simp
  | cons j rest ih =>
      intro s hs c
      rw [List.foldl_cons]
      have hstep : sweepStep now s j = completeMiningJob now j s := by
        unfold sweepStep
        rw [if_pos hs]
      have hs' : (sweepStep now s j).status = UserStatus.active := by
        rw [sweepStep_status]; exact hs
      rw [ih (sweepStep now s j) hs' c, hstep]
      show Function.update s.balances j.currency
          (s.balances j.currency + j.targetAmount) c + _ = _
      by_cases hc : j.currency = c
      · subst hc
        rw [Function.update_same]
        simp [add_assoc]
      · rw [Function.update_noteq (fun h => hc h.symm)]
        simp [hc, add_assoc]

theorem foldl_sweep_txns (now : ℕ) :
    ∀ (L : List MiningJob) (s : Account),
      s.status = UserStatus.active →
      (L.foldl (sweepStep now) s).txns = s.txns ++ L.map mkMiningTxn := by
  intro L
  induction L with
  | nil => intro s _; simp
  | cons j rest ih =>
      intro s hs
      rw [List.foldl_cons]
      have hstep : sweepStep now s j = completeMiningJob now j s := by
        unfold sweepStep
        rw [if_pos hs]
      have hs' : (sweepStep now s j).status = UserStatus.active := by
        rw [sweepStep_status]; exact hs
      rw [ih (sweepStep now s j) hs', hstep]
      show (s.txns ++ [mkMiningTxn j]) ++ _ = _
      simp

theorem completeOne_id (now : ℕ) (k : MiningJob) :
    (completeOne now k).id = k.id := rfl

theorem completeOne_idem (now : ℕ) (k : MiningJob) :
    completeOne now (completeOne now k) = completeOne now k := rfl

theorem markCompleted_nil (now : ℕ) (k : MiningJob) :
    markCompleted now [] k = k := by
  simp [markCompleted]

theorem markCompleted_compose (now : ℕ) (jid : ℕ) (ids : List ℕ)
    (k : MiningJob) :
    markCompleted now ids (if k.id = jid then completeOne now k else k) =
      markCompleted now (jid :: ids) k := by
  unfold markCompleted
  by_cases h1 : k.id = jid
  · rw [if_pos h1]
    by_cases h2 : k.id ∈ ids
    · rw [if_pos (by rw [completeOne_id]; exact h2), completeOne_idem,
        if_pos (List.mem_cons_of_mem jid h2)]
    · rw [if_neg (by rw [completeOne_id]; exact h2),
        if_pos (by rw [h1]; exact List.mem_cons_self jid ids)]
  · rw [if_neg h1]
    by_cases h2 : k.id ∈ ids
    · rw [if_pos h2, if_pos (List.mem_cons_of_mem jid h2)]
    · rw [if_neg h2, if_neg (by
        intro hmem
        rcases List.mem_cons.mp hmem with h | h
        · exact h1 h
        · exact h2 h)]

theorem foldl_sweep_jobs (now : ℕ) :
    ∀ (L : List MiningJob) (s : Account),
      s.status = UserStatus.active →
      (∀ k ∈ s.jobs, k.id < s.nextJobId) →
      (∀ j ∈ L, j.id < s.nextJobId) →
      (L.foldl (sweepStep now) s).jobs =
        s.jobs.map (markCompleted now (L.map (fun j => j.id))) ++
          successorsFrom now s.nextJobId L
      ∧ (L.foldl (sweepStep now) s).nextJobId = s.nextJobId + L.length := by
  intro L
  induction L with
  | nil =>
      intro s _ _ _
      constructor
      · have h1 : ∀ (l : List MiningJob), l.map (markCompleted now []) = l := by
          intro l
          induction l with
          | nil => rfl
          | cons x t iht => rw [List.map_cons, markCompleted_nil, iht]
        show s.jobs = s.jobs.map (markCompleted now []) ++
          successorsFrom now s.nextJobId []
        rw [h1, successorsFrom, List.append_nil]
      · rfl
  | cons j rest ih =>
      intro s hs hsb hLb
      have hstep : sweepStep now s j = completeMiningJob now j s := by
        unfold sweepStep
        rw [if_pos hs]
      have hs' : (sweepStep now s j).status = UserStatus.active := by
        rw [sweepStep_status]; exact hs
      have hjobs' : (sweepStep now s j).jobs =
          (s.jobs.map (fun k => if k.id = j.id then completeOne now k else k))
            ++ [newJob s.nextJobId j.currency j.mtype j.targetAmount now] := by
        rw [hstep]; rfl
      have hnid' : (sweepStep now s j).nextJobId = s.nextJobId + 1 := by
        rw [hstep]; rfl
      have hsb' : ∀ k ∈ (sweepStep now s j).jobs,
          k.id < (sweepStep now s j).nextJobId := by
        intro k hk
        rw [hjobs'] at hk
        rw [hnid']
        rcases List.mem_append.mp hk with hk | hk
        · rcases List.mem_map.mp hk with ⟨k0, hk0, hEq⟩
        
          have hid : k.id = k0.id := by
            subst hEq
            by_cases h : k0.id = j.id
            · rw [if_pos h, completeOne_id]
            · rw [if_neg h]
          rw [hid]
          exact Nat.lt_succ_of_lt (hsb k0 hk0)
        · have : k = newJob s.nextJobId j.currency j.mtype j.targetAmount now :=
            List.mem_singleton.mp hk
          rw [this]
          exact Nat.lt_succ_self _
      have hLb' : ∀ x ∈ rest, x.id < (sweepStep now s j).nextJobId := by
        intro x hx
        rw [hnid']
        exact Nat.lt_succ_of_lt (hLb x (List.mem_cons_of_mem j hx))
      obtain ⟨ihjobs, ihnid⟩ := ih (sweepStep now s j) hs' hsb' hLb'
      rw [List.foldl_cons]
      constructor
      · rw [ihjobs, hjobs', hnid']
        rw [List.map_append, List.map_map]
        have hfun : (markCompleted now (rest.map (fun x => x.id))) ∘
            (fun k => if k.id = j.id then completeOne now k else k) =
            markCompleted now ((j :: rest).map (fun x => x.id)) := by
          funext k
          show markCompleted now (rest.map (fun x => x.id))
              (if k.id = j.id then completeOne now k else k) = _
          rw [markCompleted_compose]
          rfl
        rw [hfun]
        have hnew : (markCompleted now (rest.map (fun x => x.id))
            (newJob s.nextJobId j.currency j.mtype j.targetAmount now)) =
            newJob s.nextJobId j.currency j.mtype j.targetAmount now := by
          unfold markCompleted
          rw [if_neg]
          intro hmem
          rcases List.mem_map.mp hmem with ⟨x, hx, hEq⟩
          have : x.id < s.nextJobId := hLb x (List.mem_cons_of_mem j hx)
          rw [show (newJob s.nextJobId j.currency j.mtype j.targetAmount
            now).id = s.nextJobId from rfl] at hEq
          omega
        rw [List.map_singleton, hnew, List.append_assoc]
        show _ ++ (_ :: _) = _ ++ successorsFrom now s.nextJobId (j :: rest)
        rfl
      · rw [ihnid, hnid', List.length_cons]
        omega

theorem markCompleted_id (now : ℕ) (ids : List ℕ) (k : MiningJob) :
    (markCompleted now ids k).id = k.id := by
  unfold markCompleted
  split <;> rfl

theorem successorsFrom_id_ge (now : ℕ) :
    ∀ (L : List MiningJob) (nid : ℕ),
      ∀ x ∈ successorsFrom now nid L, nid ≤ x.id := by
  intro L
  induction L with
  | nil => intro nid x hx; cases hx
  | cons j rest ih =>
      intro nid x hx
      rcases List.mem_cons.mp hx with h | h
      · rw [h]; exact le_refl nid
      · exact Nat.le_of_succ_le (ih (nid + 1) x h)

theorem successorsFrom_all_mining (now : ℕ) :
    ∀ (L : List MiningJob) (nid : ℕ),
      ∀ x ∈ successorsFrom now nid L, x.status = MStatus.mining := by
  intro L
  induction L with
  | nil => intro nid x hx; cases hx
  | cons j rest ih =>
      intro nid x hx
      rcases List.mem_cons.mp hx with h | h
      · rw [h]; rfl
      · exact ih (nid + 1) x h

theorem successorsFrom_filter_mining (now : ℕ) (L : List MiningJob)
    (nid : ℕ) :
    (successorsFrom now nid L).filter (fun j => j.status = MStatus.mining) =
      successorsFrom now nid L := by
  rw [List.filter_eq_self]
  intro x hx
  simp [successorsFrom_all_mining now L nid x hx]

theorem successorsFrom_map_triple (now : ℕ) :
    ∀ (L : List MiningJob) (nid : ℕ),
      (successorsFrom now nid L).map
          (fun k => (k.currency, k.mtype, k.targetAmount)) =
        L.map (fun k => (k.currency, k.mtype, k.targetAmount)) := by
  intro L
  induction L with
  | nil => intro nid; rfl
  | cons j rest ih =>
      intro nid
      rw [successorsFrom, List.map_cons, List.map_cons, ih (nid + 1)]
      rfl

theorem filter_id_unique (j : MiningJob) :
    ∀ (l : List MiningJob), (l.map (fun k => k.id)).Nodup → j ∈ l →
      l.filter (fun k => k.id = j.id) = [j] := by
  intro l
  induction l with
  | nil => intro _ hj; cases hj
  | cons a t ih =>
      intro hnd hj
      rw [List.map_cons, List.nodup_cons] at hnd
      obtain ⟨hna, hndt⟩ := hnd
      rcases List.mem_cons.mp hj with h | h
      · subst h
        rw [List.filter_cons_of_pos (by simp)]
        have ht : t.filter (fun k => k.id = j.id) = [] := by
          rw [List.filter_eq_nil_iff]
          intro k hk
          simp only [decide_eq_true_eq]
          intro hEq
          exact hna (List.mem_map.mpr ⟨k, hk, hEq⟩)
        rw [ht]
      · have hne : ¬ (a.id = j.id) := by
          intro hEq
          exact hna (List.mem_map.mpr ⟨j, h, hEq.symm⟩)
        rw [List.filter_cons_of_neg (by simp [hne])]
        exact ih hndt h

/-- C3: one run of the completion sweep, on an active account whose job
documents have distinct ids, credits every `mining` job's `targetAmount`
to the balance of that job's currency (each job exactly once), rewrites
each such job to `completed` with `minedAmount = targetAmount`,
`progress = 100` and `endTime` stamped, appends one mining Transaction per
job, and leaves as the new `mining` jobs exactly one successor per
processed job with the same currency, type and targetAmount. -/
theorem mining_sweep_spec (now : ℕ) (a : Account) (j : MiningJob)
    (ha : a.status = UserStatus.active)
    (hb : ∀ k ∈ a.jobs, k.id < a.nextJobId)
    (hnd : (a.jobs.map (fun k => k.id)).Nodup)
    (hj : j ∈ a.jobs) (hjm : j.status = MStatus.mining) :
    (∀ c, (processMiningCycles now a).balances c =
        a.balances c +
          ((a.jobs.filter (fun k => k.status = MStatus.mining)).map
            (fun k => if k.currency = c then k.targetAmount else 0)).sum)
    ∧ (processMiningCycles now a).jobs.filter (fun k => k.id = j.id) =
        [completeOne now j]
    ∧ (completeOne now j).status = MStatus.completed
    ∧ (completeOne now j).minedAmount = j.targetAmount
    ∧ (completeOne now j).progress = 100
    ∧ (completeOne now j).endTime = some now
    ∧ ((processMiningCycles now a).jobs.filter
          (fun k => k.status = MStatus.mining)).map
        (fun k => (k.currency, k.mtype, k.targetAmount)) =
        (a.jobs.filter (fun k => k.status = MStatus.mining)).map
          (fun k => (k.currency, k.mtype, k.targetAmount))
    ∧ (processMiningCycles now a).txns =
        a.txns ++ (a.jobs.filter
          (fun k => k.status = MStatus.mining)).map mkMiningTxn := by
  have hmsb : ∀ x ∈ a.jobs.filter (fun k => k.status = MStatus.mining),
      x.id < a.nextJobId :=
    fun x hx => hb x (List.mem_of_mem_filter hx)
  obtain ⟨hjobs, hnidEq⟩ := foldl_sweep_jobs now
    (a.jobs.filter (fun k => k.status = MStatus.mining)) a ha hb hmsb
  have hjms : j ∈ a.jobs.filter (fun k => k.status = MStatus.mining) :=
    List.mem_filter.mpr ⟨hj, by simp [hjm]⟩
  have hproc : (processMiningCycles now a).jobs =
      a.jobs.map (markCompleted now
        ((a.jobs.filter (fun k => k.status = MStatus.mining)).map
          (fun x => x.id))) ++
      successorsFrom now a.nextJobId
        (a.jobs.filter (fun k => k.status = MStatus.mining)) := hjobs
  refine ⟨fun c => foldl_sweep_balances now _ a ha c, ?_, rfl, rfl, rfl, rfl,
    ?_, foldl_sweep_txns now _ a ha⟩
  · rw [hproc, List.filter_append]
    have hsucc : (successorsFrom now a.nextJobId
        (a.jobs.filter (fun k => k.status = MStatus.mining))).filter
          (fun k => k.id = j.id) = [] := by
      rw [List.filter_eq_nil_iff]
      intro x hx
      simp only [decide_eq_true_eq]
      intro hEq
      have h1 := successorsFrom_id_ge now _ a.nextJobId x hx
      have h2 := hb j hj
      omega
    rw [hsucc, List.append_nil, List.filter_map]
    have hcong : a.jobs.filter ((fun k => decide (k.id = j.id)) ∘
        (markCompleted now
          ((a.jobs.filter (fun k => k.status = MStatus.mining)).map
            (fun x => x.id)))) =
        a.jobs.filter (fun k => k.id = j.id) := by
      apply List.filter_congr
      intro k _
      show decide ((markCompleted now _ k).id = j.id) = _
      rw [markCompleted_id]
    rw [hcong, filter_id_unique j a.jobs hnd hj, List.map_singleton]
    have : markCompleted now
        ((a.jobs.filter (fun k => k.status = MStatus.mining)).map
          (fun x => x.id)) j = completeOne now j := by
      unfold markCompleted
      rw [if_pos (List.mem_map.mpr ⟨j, hjms, rfl⟩)]
    rw [this]
  · rw [hproc, List.filter_append, successorsFrom_filter_mining,
      List.map_append, successorsFrom_map_triple, List.filter_map]
    have hnil : a.jobs.filter ((fun k => decide (k.status = MStatus.mining)) ∘
        (markCompleted now
          ((a.jobs.filter (fun k => k.status = MStatus.mining)).map
            (fun x => x.id)))) = [] := by
      rw [List.filter_eq_nil_iff]
      intro k hk
      show ¬ (decide ((markCompleted now _ k).status = MStatus.mining) = true)
      simp only [decide_eq_true_eq]
      unfold markCompleted
      by_cases hmem : k.id ∈
          ((a.jobs.filter (fun x => x.status = MStatus.mining)).map
            (fun x => x.id))
      · rw [if_pos hmem]
        intro hcontra
        exact absurd hcontra (by simp [completeOne])
      · rw [if_neg hmem]
        intro hmine
        exact hmem (List.mem_map.mpr
          ⟨k, List.mem_filter.mpr ⟨hk, by simp [hmine]⟩, rfl⟩)
    rw [hnil]
    simp

/-- Active account with a single `mining` job (USD, target 1000), for the
sweep witness. -/
def acctSweep : Account :=
  { status := .active,
    balances := fun _ => 0,
    trading := { capital := 0, profit := 0, robotActive := false },
    jobs := [newJob 0 .USD .currency 1000 0],
    nextJobId := 1, txns := [] }

/-- Witness for C3 at the spec scenario: one USD job with target 1000;
after one sweep the USD balance is credited 1000, the job document is
completed, and exactly one successor `mining` job for USD/1000 exists. -/
theorem mining_sweep_spec_witness :
    (processMiningCycles 3 acctSweep).balances Currency.USD =
      acctSweep.balances Currency.USD +
        ((acctSweep.jobs.filter (fun k => k.status = MStatus.mining)).map
          (fun k => if k.currency = Currency.USD then k.targetAmount
                    else 0)).sum
    ∧ (processMiningCycles 3 acctSweep).jobs.filter
        (fun k => k.id = (newJob 0 .USD .currency 1000 0).id) =
        [completeOne 3 (newJob 0 .USD .currency 1000 0)]
    ∧ ((processMiningCycles 3 acctSweep).jobs.filter
        (fun k => k.status = MStatus.mining)).map
        (fun k => (k.currency, k.mtype, k.targetAmount)) =
        (acctSweep.jobs.filter (fun k => k.status = MStatus.mining)).map
          (fun k => (k.currency, k.mtype, k.targetAmount))
    ∧ (processMiningCycles 3 acctSweep).balances Currency.USD = 1000 :=
  ⟨(mining_sweep_spec 3 acctSweep (newJob 0 .USD .currency 1000 0)
      rfl (by decide) (by decide) (by decide) rfl).1 Currency.USD,
   (mining_sweep_spec 3 acctSweep (newJob 0 .USD .currency 1000 0)
      rfl (by decide) (by decide) (by decide) rfl).2.1,
   (mining_sweep_spec 3 acctSweep (newJob 0 .USD .currency 1000 0)
      rfl (by decide) (by decide) (by decide) rfl).2.2.2.2.2.2.1,
   by with_unfolding_all decide⟩

/-- One legal schedule of two concurrently running completion sweeps: the
hourly cron fires `processMiningCycles` again while a previous run is
still in flight, and both `Mining.find({status:'mining'})` queries resolve
before either run saves a job, so both runs hold the same snapshot; their
per-job work then serializes.  The source takes no exclusive claim on a
job before crediting, so this schedule is reachable. -/
def overlappedSweeps (now : ℕ) (a : Account) : Account :=
  (a.jobs.filter (fun j => j.status = MStatus.mining)).foldl (sweepStep now)
    ((a.jobs.filter (fun j => j.status = MStatus.mining)).foldl
      (sweepStep now) a)

/-- Active account with a single `mining` job (USD, target 1000), for the
overlapped-sweep counterexample. -/
def acctOverlap : Account :=
  { status := .active,
    balances := fun _ => 0,
    trading := { capital := 0, profit := 0, robotActive := false },
    jobs := [newJob 0 .USD .currency 1000 0],
    nextJobId := 1, txns := [] }

set_option maxRecDepth 6000 in
/-- Counterexample to C7 as stated: under the overlapped schedule the one
mining job (total target 1000 this cycle) is credited twice — the USD
balance rises by 2000, while a single sweep credits 1000.  The code has no
claim step, so concurrency does not keep the credit at most once. -/
theorem overlapped_sweeps_double_credit :
    acctOverlap.balances Currency.USD = 0
    ∧ ((acctOverlap.jobs.filter (fun k => k.status = MStatus.mining)).map
        (fun k => k.targetAmount)).sum = 1000
    ∧ (processMiningCycles 0 acctOverlap).balances Currency.USD = 1000
    ∧ (overlappedSweeps 0 acctOverlap).balances Currency.USD = 2000 :=
  ⟨by decide, by with_unfolding_all decide,
   by with_unfolding_all decide, by with_unfolding_all decide⟩

/-- C7 (amended): within a single, non-overlapped run of the completion
sweep each `mining` job is credited exactly once — every currency balance
rises by exactly the sum of the targets of its `mining` jobs, each counted
once.  The source provides no exclusive claim on jobs, so the guarantee
does not extend to sweeps overlapping with themselves (see the
counterexample). -/
theorem single_sweep_credits_once (now : ℕ) (a : Account)
    (ha : a.status = UserStatus.active) :
    ∀ c, (processMiningCycles now a).balances c =
      a.balances c +
        ((a.jobs.filter (fun k => k.status = MStatus.mining)).map
          (fun k => if k.currency = c then k.targetAmount else 0)).sum :=
  foldl_sweep_balances now _ a ha

/-- Witness for the amended C7 on the one-job account. -/
theorem single_sweep_credits_once_witness :
    acctOverlap.status = UserStatus.active
    ∧ (processMiningCycles 5 acctOverlap).balances Currency.USD =
        acctOverlap.balances Currency.USD +
          ((acctOverlap.jobs.filter
              (fun k => k.status = MStatus.mining)).map
            (fun k => if k.currency = Currency.USD then k.targetAmount
                      else 0)).sum :=
  ⟨rfl, single_sweep_credits_once 5 acctOverlap rfl Currency.USD⟩

/-- `POST /api/trading/toggle` (`routes/trading.js`): set `robotActive`,
and when enabling with `capital === 0`, seed the capital with 10000. -/
def toggleTrading (enabled : Bool) (a : Account) : Account :=
  let a1 := { a with trading := { a.trading with robotActive := enabled } }
  if enabled ∧ a1.trading.capital = 0 then
    { a1 with trading := { a1.trading with capital := 10000 } }
  else a1

/-- A user-initiated core operation on one account. -/
inductive UserOp
  | sendOp (c : Currency) (amt : ℚ) (recip : String)
  | receiveOp (c : Currency) (amt : ℚ)
  | transferOp (fromC toC : Currency) (amt : ℚ)
  | cryptoSendOp (c : Currency) (amt : ℚ) (addr : String)
  | internationalOp (c : Currency) (amt : ℚ) (recip : String)
  | withdrawProfitOp
  | toggleMiningOp (enabled : Bool) (now : ℕ)
  | toggleTradingOp (enabled : Bool)

/-- Effect of a user operation on the targeted account's state. -/
def UserOp.apply : UserOp → Account → Account
  | .sendOp c amt r, a => (send c amt r a).1
  | .receiveOp c amt, a => receive c amt a
  | .transferOp fromC toC amt, a => (transfer fromC toC amt a).1
  | .cryptoSendOp c amt addr, a => (cryptoSend c amt addr a).1
  | .internationalOp c amt r, a => (internationalTransfer c amt r a).1
  | .withdrawProfitOp, a => (withdrawProfit a).1
  | .toggleMiningOp e now, a => toggleMining e now a
  | .toggleTradingOp e, a => toggleTrading e a

/-- Input constraints the excluded Joi validation layer enforces before a
route body runs: send / receive / transfer / crypto-send amounts are
`Joi.number().positive()`.  The international route has no schema, so its
amount is unconstrained. -/
def UserOp.validInput : UserOp → Prop
  | .sendOp _ amt _ => 0 < amt
  | .receiveOp _ amt => 0 < amt
  | .transferOp _ _ amt => 0 < amt
  | .cryptoSendOp _ amt _ => 0 < amt
  | _ => True

/-- A step of the whole system: a user request against one account, a
completion sweep over all accounts, or a trading tick over all accounts
(with a per-account family of random draws). -/
inductive GOp
  | user (uid : ℕ) (op : UserOp)
  | mineSweep (now : ℕ)
  | tradeTick (outcome : ℕ → Bool) (d1 d2 : ℕ → ℚ)

/-- Effect of a system step on the store (the map from account id to
account state).  A sweep and a trading tick touch each account only
through that account's own documents, so they act pointwise. -/
def GOp.apply : GOp → (ℕ → Account) → (ℕ → Account)
  | .user uid op, g => Function.update g uid (op.apply (g uid))
  | .mineSweep now, g => fun uid => processMiningCycles now (g uid)
  | .tradeTick outcome d1 d2, g => fun uid =>
      tradeOne (outcome uid) (d1 uid) (d2 uid) (g uid)

/-- Validity of a system step: the user-request constraints, plus the
`Math.random() ∈ [0,1)` range of the trading draws. -/
def GOp.validInput : GOp → Prop
  | .user _ op => op.validInput
  | .mineSweep _ => True
  | .tradeTick _ d1 d2 => ∀ uid, 0 ≤ d1 uid ∧ 0 ≤ d2 uid

/-- Run a sequence of system steps. -/
def runOps (ops : List GOp) (g : ℕ → Account) : ℕ → Account :=
  ops.foldl (fun s op => op.apply s) g

/-- The state invariant of one account: all nine balances are non-negative
and all mining-job targets are non-negative (every job the system ever
creates carries one of the toggle route's positive targets, or copies the
target of an existing job). -/
def AccountInv (a : Account) : Prop :=
  (∀ c, 0 ≤ a.balances c) ∧ (∀ j ∈ a.jobs, 0 ≤ j.targetAmount)

theorem conversionRate_pos (fromC toC : Currency) :
    0 < (conversionRates fromC toC).getD 1 := by
  revert fromC toC
  with_unfolding_all decide

theorem send_preserves_inv (c : Currency) (amt : ℚ) (r : String)
    (a : Account) (h : AccountInv a) : AccountInv (send c amt r a).1 := by
  unfold send
  split
  · exact h
  · refine ⟨fun c' => ?_, h.2⟩
    show 0 ≤ Function.update a.balances c (a.balances c - amt) c'
    by_cases hc : c' = c
    · subst hc
      rw [Function.update_same]
      have := not_lt.mp (by assumption : ¬ a.balances c' < amt)
      linarith
    · rw [Function.update_noteq hc]
      exact h.1 c'

theorem cryptoSend_preserves_inv (c : Currency) (amt : ℚ) (addr : String)
    (a : Account) (h : AccountInv a) : AccountInv (cryptoSend c amt addr a).1 := by
  unfold cryptoSend
  split
  · exact h
  · refine ⟨fun c' => ?_, h.2⟩
    show 0 ≤ Function.update a.balances c (a.balances c - amt) c'
    by_cases hc : c' = c
    · subst hc
      rw [Function.update_same]
      have := not_lt.mp (by assumption : ¬ a.balances c' < amt)
      linarith
    · rw [Function.update_noteq hc]
      exact h.1 c'

theorem international_preserves_inv (c : Currency) (amt : ℚ) (r : String)
    (a : Account) (h : AccountInv a) :
    AccountInv (internationalTransfer c amt r a).1 := by
  unfold internationalTransfer
  split
  · exact h
  · refine ⟨fun c' => ?_, h.2⟩
    show 0 ≤ Function.update a.balances c (a.balances c - amt) c'
    by_cases hc : c' = c
    · subst hc
      rw [Function.update_same]
      have := not_lt.mp (by assumption : ¬ a.balances c' < amt)
      linarith
    · rw [Function.update_noteq hc]
      exact h.1 c'

theorem receive_preserves_inv (c : Currency) (amt : ℚ) (a : Account)
    (hamt : 0 < amt) (h : AccountInv a) : AccountInv (receive c amt a) := by
  refine ⟨fun c' => ?_, h.2⟩
  unfold receive
  by_cases hc : c' = c
  · subst hc
    show 0 ≤ Function.update a.balances c' (a.balances c' + amt) c'
    rw [Function.update_same]
    have := h.1 c'
    linarith
  · show 0 ≤ Function.update a.balances c (a.balances c + amt) c'
    rw [Function.update_noteq hc]
    exact h.1 c'

theorem transfer_preserves_inv (fromC toC : Currency) (amt : ℚ)
    (a : Account) (hamt : 0 < amt) (h : AccountInv a) :
    AccountInv (transfer fromC toC amt a).1 := by
  unfold transfer
  split
  · exact h
  · split
    · exact h
    · refine ⟨fun c' => ?_, h.2⟩
      have hne : ¬ fromC = toC := by assumption
      have hbal := not_lt.mp (by assumption : ¬ a.balances fromC < amt)
      have hrate := conversionRate_pos fromC toC
      show 0 ≤ Function.update
        (Function.update a.balances fromC (a.balances fromC - amt)) toC
        (Function.update a.balances fromC (a.balances fromC - amt) toC +
          amt * (conversionRates fromC toC).getD 1) c'
      by_cases hc2 : c' = toC
      · subst hc2
        rw [Function.update_same,
          Function.update_noteq (fun hEq => hne (hEq.symm))]
        have h0 := h.1 c'
        nlinarith
      · rw [Function.update_noteq hc2]
        by_cases hc1 : c' = fromC
        · subst hc1
          rw [Function.update_same]
          linarith
        · rw [Function.update_noteq hc1]
          exact h.1 c'

theorem withdraw_preserves_inv (a : Account) (h : AccountInv a) :
    AccountInv (withdrawProfit a).1 := by
  unfold withdrawProfit
  split
  · exact h
  · refine ⟨fun c' => ?_, h.2⟩
    have hp := lt_of_not_le (by assumption : ¬ a.trading.profit ≤ 0)
    show 0 ≤ Function.update a.balances Currency.USD
      (a.balances Currency.USD + a.trading.profit) c'
    by_cases hc : c' = Currency.USD
    · subst hc
      rw [Function.update_same]
      have := h.1 Currency.USD
      linarith
    · rw [Function.update_noteq hc]
      exact h.1 c'

theorem tradeOne_balances_jobs (p : Bool) (r1 r2 : ℚ) (a : Account) :
    (tradeOne p r1 r2 a).balances = a.balances
    ∧ (tradeOne p r1 r2 a).jobs = a.jobs := by
  unfold tradeOne
  split
  · split
    · exact ⟨rfl, rfl⟩
    · cases p <;> exact ⟨rfl, rfl⟩
  · exact ⟨rfl, rfl⟩

theorem tradeOne_preserves_inv (p : Bool) (r1 r2 : ℚ) (a : Account)
    (h : AccountInv a) : AccountInv (tradeOne p r1 r2 a) := by
  obtain ⟨hbal, hjobs⟩ := tradeOne_balances_jobs p r1 r2 a
  exact ⟨fun c => by rw [hbal]; exact h.1 c, by rw [hjobs]; exact h.2⟩

theorem toggleTrading_preserves_inv (e : Bool) (a : Account)
    (h : AccountInv a) : AccountInv (toggleTrading e a) := by
  unfold toggleTrading
  dsimp only
  split
  · exact h
  · exact h

theorem startJobsFrom_target_nonneg (now : ℕ) :
    ∀ (L : List (Currency × MType × ℚ)) (nid : ℕ),
      (∀ cct ∈ L, 0 ≤ cct.2.2) →
      ∀ x ∈ startJobsFrom now nid L, 0 ≤ x.targetAmount := by
  intro L
  induction L with
  | nil => intro nid _ x hx; cases hx
  | cons cct rest ih =>
      intro nid hL x hx
      rcases List.mem_cons.mp hx with h | h
      · rw [h]
        exact hL cct (List.mem_cons_self cct rest)
      · exact ih (nid + 1)
          (fun y hy => hL y (List.mem_cons_of_mem cct hy)) x h

theorem toggleMining_preserves_inv (e : Bool) (now : ℕ) (a : Account)
    (h : AccountInv a) : AccountInv (toggleMining e now a) := by
  unfold toggleMining
  split
  · split
    · constructor
      · intro c
        rw [(foldl_startJob_frame now miningStartList a).1]
        exact h.1 c
      · intro j hj
        rw [foldl_startJob_jobs now miningStartList a] at hj
        rcases List.mem_append.mp hj with hj | hj
        · exact h.2 j hj
        · exact startJobsFrom_target_nonneg now miningStartList a.nextJobId
            (by decide) j hj
    · exact h
  · constructor
    · exact h.1
    · intro j hj
      rcases List.mem_map.mp hj with ⟨k, hk, hEq⟩
      have htgt : j.targetAmount = k.targetAmount := by
        subst hEq
        by_cases hks : k.status = MStatus.mining
        · rw [if_pos hks]
        · rw [if_neg hks]
      rw [htgt]
      exact h.2 k hk

theorem foldl_sweep_preserves_inv (now : ℕ) :
    ∀ (L : List MiningJob) (s : Account),
      (∀ j ∈ L, 0 ≤ j.targetAmount) → AccountInv s →
      AccountInv (L.foldl (sweepStep now) s) := by
  intro L
  induction L with
  | nil => intro s _ h; exact h
  | cons j rest ih =>
      intro s hL h
      rw [List.foldl_cons]
      apply ih _ (fun x hx => hL x (List.mem_cons_of_mem j hx))
      unfold sweepStep
      split
      · constructor
        · intro c
          show 0 ≤ Function.update s.balances j.currency
            (s.balances j.currency + j.targetAmount) c
          by_cases hc : c = j.currency
          · subst hc
            rw [Function.update_same]
            have h1 := h.1 j.currency
            have h2 := hL j (List.mem_cons_self j rest)
            linarith
          · rw [Function.update_noteq hc]
            exact h.1 c
        · intro k hk
          show 0 ≤ k.targetAmount
          rcases List.mem_append.mp hk with hk | hk
          · rcases List.mem_map.mp hk with ⟨k0, hk0, hEq⟩
            have : k.targetAmount = k0.targetAmount := by
              subst hEq
              by_cases hid : k0.id = j.id
              · rw [if_pos hid]; rfl
              · rw [if_neg hid]
            rw [this]
            exact h.2 k0 hk0
          · have : k = newJob s.nextJobId j.currency j.mtype j.targetAmount
                now := List.mem_singleton.mp hk
            rw [this]
            exact hL j (List.mem_cons_self j rest)
      · exact h

theorem sweep_preserves_inv (now : ℕ) (a : Account) (h : AccountInv a) :
    AccountInv (processMiningCycles now a) :=
  foldl_sweep_preserves_inv now _ a
    (fun j hj => h.2 j (List.mem_of_mem_filter hj)) h

theorem userOp_preserves_inv (op : UserOp) (a : Account)
    (hv : op.validInput) (h : AccountInv a) : AccountInv (op.apply a) := by
  cases op with
  | sendOp c amt r => exact send_preserves_inv c amt r a h
  | receiveOp c amt => exact receive_preserves_inv c amt a hv h
  | transferOp fromC toC amt => exact transfer_preserves_inv fromC toC amt a hv h
  | cryptoSendOp c amt addr => exact cryptoSend_preserves_inv c amt addr a h
  | internationalOp c amt r => exact international_preserves_inv c amt r a h
  | withdrawProfitOp => exact withdraw_preserves_inv a h
  | toggleMiningOp e now => exact toggleMining_preserves_inv e now a h
  | toggleTradingOp e => exact toggleTrading_preserves_inv e a h

theorem gop_preserves_inv (op : GOp) (g : ℕ → Account)
    (hv : op.validInput) (h : ∀ uid, AccountInv (g uid)) :
    ∀ uid, AccountInv (op.apply g uid) := by
  cases op with
  | user uid0 uop =>
      intro uid
      show AccountInv (Function.update g uid0 (uop.apply (g uid0)) uid)
      by_cases hu : uid = uid0
      · subst hu
        rw [Function.update_same]
        exact userOp_preserves_inv uop (g uid) hv (h uid)
      · rw [Function.update_noteq hu]
        exact h uid
  | mineSweep now =>
      intro uid
      exact sweep_preserves_inv now (g uid) (h uid)
  | tradeTick outcome d1 d2 =>
      intro uid
      exact tradeOne_preserves_inv (outcome uid) (d1 uid) (d2 uid) (g uid)
        (h uid)

theorem runOps_preserves_inv (ops : List GOp) :
    ∀ (g : ℕ → Account), (∀ op ∈ ops, op.validInput) →
      (∀ uid, AccountInv (g uid)) →
      ∀ uid, AccountInv (runOps ops g uid) := by
  induction ops with
  | nil => intro g _ h; exact h
  | cons op rest ih =>
      intro g hv h
      show ∀ uid, AccountInv (runOps rest (op.apply g) uid)
      exact ih (op.apply g)
        (fun x hx => hv x (List.mem_cons_of_mem op hx))
        (gop_preserves_inv op g (hv op (List.mem_cons_self op rest)) h)

/-- C1: starting from any store in which every currency balance of every
account is non-negative (and, as the system maintains, every mining job
carries a non-negative target — all jobs ever created have the toggle
route's positive targets or copy an existing target), any sequence of
valid core operations — send, receive, conversion transfer, crypto send,
international transfer, completion sweeps, trading ticks, profit
withdrawals and the two toggles — leaves every currency balance of every
account non-negative.  Applying the theorem to each prefix of the sequence
gives the invariant after each operation. -/
theorem balances_nonneg_invariant (ops : List GOp) (g : ℕ → Account)
    (hval : ∀ op ∈ ops, op.validInput)
    (hbal : ∀ uid c, 0 ≤ (g uid).balances c)
    (htgt : ∀ uid, ∀ j ∈ (g uid).jobs, 0 ≤ j.targetAmount) :
    ∀ uid c, 0 ≤ (runOps ops g uid).balances c :=
  fun uid c =>
    (runOps_preserves_inv ops g hval (fun u => ⟨hbal u, htgt u⟩) uid).1 c

/-- Operation sequence used by the C1 witness. -/
def opsC1 : List GOp :=
  [GOp.user 0 (UserOp.sendOp Currency.USD 50 "R"),
   GOp.user 0 (UserOp.receiveOp Currency.EUR 20),
   GOp.mineSweep 1,
   GOp.tradeTick (fun _ => true) (fun _ => 0) (fun _ => 0),
   GOp.user 0 UserOp.withdrawProfitOp]

set_option maxRecDepth 6000 in
/-- Witness for C1: running a send, a receive, a sweep, a trading tick and
a profit withdrawal from the all-`USD=100` store keeps balances
non-negative; the final USD and EUR balances of account 0 are 50 and 20. -/
theorem balances_nonneg_invariant_witness :
    0 ≤ (runOps opsC1 (fun _ => acctUSD100) 0).balances Currency.USD
    ∧ (runOps opsC1 (fun _ => acctUSD100) 0).balances Currency.USD = 50
    ∧ (runOps opsC1 (fun _ => acctUSD100) 0).balances Currency.EUR = 20 :=
  ⟨balances_nonneg_invariant opsC1 (fun _ => acctUSD100)
      (by
        intro op hop
        fin_cases hop <;>
          simp only [GOp.validInput, UserOp.validInput] <;>
          first
            | trivial
            | decide
            | exact fun uid => ⟨le_rfl, le_rfl⟩)
      (fun u => by
        show ∀ c, 0 ≤ acctUSD100.balances c
        decide)
      (fun u => by
        show ∀ j ∈ acctUSD100.jobs, 0 ≤ j.targetAmount
        decide) 0 Currency.USD,
   by with_unfolding_all decide,
   by with_unfolding_all decide⟩

/-- Suspended account with one `mining` job, for the C3 counterexample. -/
def acctSuspended : Account :=
  { status := .suspended,
    balances := fun _ => 0,
    trading := { capital := 0, profit := 0, robotActive := false },
    jobs := [newJob 0 .USD .currency 1000 0],
    nextJobId := 1, txns := [] }

/-- Counterexample to C3 as stated: the sweep is not unconditional per
`mining` job — `processMiningCycles` skips jobs whose owning user is not
`active` (`if (!user || user.status !== 'active') continue`).  On a
suspended account with one `mining` job, a sweep credits nothing, leaves
the job in `mining` status, appends no transaction and spawns no
successor. -/
theorem mining_sweep_skips_inactive :
    (newJob 0 .USD .currency 1000 0) ∈ acctSuspended.jobs
    ∧ (newJob 0 .USD .currency 1000 0).status = MStatus.mining
    ∧ acctSuspended.status ≠ UserStatus.active
    ∧ (processMiningCycles 4 acctSuspended).balances Currency.USD = 0
    ∧ (processMiningCycles 4 acctSuspended).jobs = acctSuspended.jobs
    ∧ (processMiningCycles 4 acctSuspended).txns = [] :=
  ⟨by decide, by decide, by decide, by decide, by decide, by decide⟩
